import Mathlib

/-!
Shallow embedding of the fresj cookies middleware (src/cookies/mod.ts).

Cookie names and values are modelled as lists of characters (`Str`);
`Record<string, string>` objects are modelled as association lists with
JavaScript object-assignment semantics (overwrite in place when the key is
present, append otherwise).  The HMAC primitive is kept abstract as a
deterministic function `mac : Str → Key → Str`, matching the spec's treatment
of the crypto layer as an external capability `sign(bytes, key) -> tag`.
-/

set_option autoImplicit false

abbrev Str := List Char

abbrev CookieMap := List (Str × Str)

/-- JavaScript membership test `name in obj` on a cookie map. -/
def memKey (m : CookieMap) (k : Str) : Bool :=
  m.any (fun p => p.1 == k)

/-- JavaScript object assignment `obj[k] = v`: overwrite the entry in place
when the key is already present, otherwise append the new entry. -/
def insertKey (m : CookieMap) (k v : Str) : CookieMap :=
  if memKey m k then m.map (fun p => if p.1 == k then (k, v) else p)
  else m ++ [(k, v)]

/-- The list of keys of a cookie map. -/
def keysOf (m : CookieMap) : List Str :=
  m.map Prod.fst

/-- Splits a list at the first occurrence of `c`, returning the parts before
and after it, or `none` when `c` does not occur. -/
def breakAtFirst (c : Char) : Str → Option (Str × Str)
  | [] => none
  | x :: xs =>
    if x == c then some ([], xs)
    else (breakAtFirst c xs).map (fun p => (x :: p.1, p.2))

/-- Splits a wire value at the last occurrence of the delimiter character
into the candidate plaintext (before) and the candidate tag (after). -/
def splitLastDot (w : Str) : Option (Str × Str) :=
  (breakAtFirst '.' w.reverse).map (fun p => (p.2.reverse, p.1.reverse))

/-- Modelled from the spec: `signCookie` of `@std/http/unstable-signed-cookie`
is imported by src/cookies/mod.ts but its code is not part of this repository.
Per spec section 4.1 the encoder combines the plaintext and the MAC tag with a
literal dot delimiter, producing the wire format plaintext.tag. -/
def signCookie {Key : Type} (mac : Str → Key → Str) (v : Str) (k : Key) : Str :=
  v ++ '.' :: mac v k

/-- Modelled from the spec: `verifySignedCookie` of
`@std/http/unstable-signed-cookie` is not part of this repository.  Per spec
section 4.1 it splits the wire value at the last delimiter, recomputes the tag
over the candidate plaintext with the key and compares; malformed input (no
delimiter, empty tag) or a mismatch yields failure. -/
def verifySignedCookie {Key : Type} (mac : Str → Key → Str) (w : Str) (k : Key) : Bool :=
  match splitLastDot w with
  | none => false
  | some (p, tag) => !tag.isEmpty && mac p k == tag

/-- Modelled from the spec: `parseSignedCookie` of
`@std/http/unstable-signed-cookie` is not part of this repository.  Per spec
section 4.1 it recovers the candidate plaintext before the last delimiter. -/
def parseSignedCookie (w : Str) : Str :=
  match splitLastDot w with
  | none => []
  | some (p, _) => p

/-- Spec section 4.1 decode: verify, then recover the plaintext; failure on an
invalid signature is `none`, mirroring how the partitioner combines
`verifySignedCookie` with `parseSignedCookie`. -/
def decode {Key : Type} (mac : Str → Key → Str) (w : Str) (k : Key) : Option Str :=
  if verifySignedCookie mac w k then some (parseSignedCookie w) else none

/-- The reserved signed-cookie name marker, the string literal from
src/cookies/mod.ts. -/
def sDot : Str := ['s', '.']

/-- The test `key.startsWith("s.")` from src/cookies/mod.ts. -/
def startsWithS : Str → Bool
  | c1 :: c2 :: _ => c1 == 's' && c2 == '.'
  | _ => false

/-- The partitioning loop of `cookiesMwImpl` (src/cookies/mod.ts lines
188-195): signed-prefixed names are skipped without a key, verified and
inserted prefix-stripped into the signed map otherwise; all other names are
inserted verbatim into the unsigned map. -/
def partitionCookies {Key : Type} (mac : Str → Key → Str) (k? : Option Key) :
    List (Str × Str) → CookieMap → CookieMap → CookieMap × CookieMap
  | [], u, s => (u, s)
  | (name, value) :: rest, u, s =>
    if startsWithS name then
      match k? with
      | none => partitionCookies mac k? rest u s
      | some k =>
        if verifySignedCookie mac value k then
          partitionCookies mac k? rest u
            (insertKey s (name.drop 2) (parseSignedCookie value))
        else
          partitionCookies mac k? rest u s
    else
      partitionCookies mac k? rest (insertKey u name value) s

/-- The per-request state bag.  Each field is optional because the Fresh state
bag is a dynamic record: a field is `none` when the corresponding symbol key
was never assigned. -/
structure StateBag (Key : Type) where
  unsignedCookies : Option CookieMap
  signedCookies : Option CookieMap
  cookieKey : Option Key
deriving DecidableEq

/-- `cookiesMwImpl` (src/cookies/mod.ts lines 172-198): builds both maps from
the request cookie pairs, stores them in the state bag, and stores the key
when one is configured. -/
def cookiesMwImpl {Key : Type} (mac : Str → Key → Str) (k? : Option Key)
    (pairs : List (Str × Str)) : StateBag Key :=
  { unsignedCookies := some (partitionCookies mac k? pairs [] []).1,
    signedCookies := some (partitionCookies mac k? pairs [] []).2,
    cookieKey := k? }

/-- The middleware returns `ctx.next()`: the downstream pipeline runs on the
state bag the middleware produced, and the middleware adds nothing else to the
response. -/
def runMw {Key R : Type} (mac : Str → Key → Str) (k? : Option Key)
    (next : StateBag Key → R) (pairs : List (Str × Str)) : R :=
  next (cookiesMwImpl mac k? pairs)

/-- An outbound header mutation: a standard Set-Cookie entry, or a
cookie-expiry entry as produced by the std `deleteCookie` helper. -/
inductive HeaderMutation where
  | setCookie (name value : Str)
  | expireCookie (name : Str)
deriving DecidableEq

/-- `deleteCookie` (src/cookies/mod.ts lines 214-235).  The result is `none`
when the state bag lacks the unsigned map (the JavaScript `in` operator on an
absent record would throw); otherwise it is the list of emitted expiry
mutations, in source order: the plain name when it is a key of the unsigned
map, then the prefixed name when the prefixed name is a key of the signed map
and the signed map is present. -/
def deleteCookie {Key : Type} (st : StateBag Key) (name : Str) :
    Option (List HeaderMutation) :=
  match st.unsignedCookies with
  | none => none
  | some u =>
    some ((if memKey u name then [HeaderMutation.expireCookie name] else []) ++
      (match st.signedCookies with
       | none => []
       | some s =>
         if memKey s (sDot ++ name) then
           [HeaderMutation.expireCookie (sDot ++ name)]
         else []))

/-- The error taxonomy of the writers (spec section 7); the source throws
plain `Error`s whose messages distinguish exactly these two conditions. -/
inductive CookieError where
  | ReservedNameError
  | MissingKeyError
deriving DecidableEq

/-- A cookie to be written: name and value (the remaining attributes play no
role in the claims). -/
structure Cookie where
  name : Str
  value : Str

/-- `setUnsignedCookie` (src/cookies/mod.ts lines 243-254): rejects reserved
names, otherwise appends a standard Set-Cookie entry to the outbound headers. -/
def setUnsignedCookie (hs : List HeaderMutation) (c : Cookie) :
    Except CookieError (List HeaderMutation) :=
  if startsWithS c.name then .error .ReservedNameError
  else .ok (hs ++ [HeaderMutation.setCookie c.name c.value])

/-- `setSignedCookie` (src/cookies/mod.ts lines 263-285): rejects reserved
names, rejects a state bag without a key, otherwise appends a Set-Cookie entry
for the prefixed name carrying the encoded value. -/
def setSignedCookie {Key : Type} (mac : Str → Key → Str) (st : StateBag Key)
    (hs : List HeaderMutation) (c : Cookie) :
    Except CookieError (List HeaderMutation) :=
  if startsWithS c.name then .error .ReservedNameError
  else
    match st.cookieKey with
    | none => .error .MissingKeyError
    | some k =>
      .ok (hs ++ [HeaderMutation.setCookie (sDot ++ c.name)
        (signCookie mac c.value k)])

/-- Splits a header string on the semicolon separator. -/
def splitOnSemi : Str → List Str
  | [] => [[]]
  | c :: rest =>
    if c == ';' then [] :: splitOnSemi rest
    else
      match splitOnSemi rest with
      | [] => [[c]]
      | x :: xs => (c :: x) :: xs

/-- Drops leading spaces of a header segment. -/
def dropSpaces (s : Str) : Str :=
  s.dropWhile (fun c => c == ' ')

/-- Modelled from the spec: one segment of the raw cookie-header tokenization
performed by `getCookies` of `@std/http/cookie`, which is not part of this
repository.  Per spec sections 2, 3 and 4.2: a segment without the equals sign
is malformed and dropped, a pair with an empty name is discarded entirely, and
a pair with nothing after the equals sign keeps the empty string as its value. -/
def parseSeg (seg : Str) : Option (Str × Str) :=
  match breakAtFirst '=' (dropSpaces seg) with
  | none => none
  | some (n, v) => if n.isEmpty then none else some (n, v)

/-- Modelled from the spec: `getCookies` of `@std/http/cookie` is not part of
this repository.  Per spec sections 2 and 3 it turns a raw header (absent
header meaning no pairs) into a name-to-value mapping, dropping malformed
pairs, with last-seen-wins on duplicate names. -/
def getCookies (h : Option Str) : CookieMap :=
  ((h.elim [] splitOnSemi).filterMap parseSeg).foldl
    (fun m p => insertKey m p.1 p.2) []

/-- The whole inbound path of the middleware: tokenize the header, then run
`cookiesMwImpl` on the resulting pairs. -/
def cookiesMwOnHeader {Key : Type} (mac : Str → Key → Str) (k? : Option Key)
    (h : Option Str) : StateBag Key :=
  cookiesMwImpl mac k? (getCookies h)

/-- A concrete deterministic MAC used to instantiate the abstract primitive on
concrete inputs: the tag depends on the key, uses a fixed dot-free alphabet
and is never empty. -/
def demoMac (_v : Str) (k : Nat) : Str :=
  't' :: List.replicate k 't'

theorem breakAtFirst_append (c : Char) (a b : Str) (h : c ∉ a) :
    breakAtFirst c (a ++ c :: b) = some (a, b) := by
  induction a with
  | nil => simp [breakAtFirst]
  | cons x xs ih =>
    have hx : ¬(x = c) := fun hh => h (hh ▸ List.mem_cons_self x xs)
    have hrest : c ∉ xs := fun hm => h (List.mem_cons_of_mem _ hm)
    simp [breakAtFirst, hx, ih hrest]

theorem breakAtFirst_eq_some (c : Char) (w p q : Str)
    (h : breakAtFirst c w = some (p, q)) : w = p ++ c :: q ∧ c ∉ p := by
  induction w generalizing p q with
  | nil => simp [breakAtFirst] at h
  | cons x xs ih =>
    by_cases hx : x = c
    · subst hx
      rw [breakAtFirst, if_pos (by simp)] at h
      injection h with h1
      have hp : p = [] := (congrArg Prod.fst h1).symm
      have hq : q = xs := (congrArg Prod.snd h1).symm
      subst hp; subst hq
      simp
    · rw [breakAtFirst, if_neg (by simpa using hx)] at h
      cases hb : breakAtFirst c xs with
      | none => rw [hb] at h; simp at h
      | some r =>
        rw [hb] at h
        simp only [Option.map_some'] at h
        injection h with h1
        have hp : x :: r.1 = p := congrArg Prod.fst h1
        have hq : r.2 = q := congrArg Prod.snd h1
        subst hq
        obtain ⟨hw, hc⟩ := ih r.1 r.2 (by rw [hb])
        subst hp
        constructor
        · simp [hw]
        · intro hm
          rcases List.mem_cons.mp hm with h1 | h2
          · exact hx h1.symm
          · exact hc h2

theorem splitLastDot_encode (p t : Str) (h : '.' ∉ t) :
    splitLastDot (p ++ '.' :: t) = some (p, t) := by
  have hrev : (p ++ '.' :: t).reverse = t.reverse ++ '.' :: p.reverse := by
    simp
  have hmem : '.' ∉ t.reverse := by simpa using h
  simp [splitLastDot, hrev, breakAtFirst_append '.' t.reverse p.reverse hmem]

theorem splitLastDot_eq_some (w p t : Str) (h : splitLastDot w = some (p, t)) :
    w = p ++ '.' :: t ∧ '.' ∉ t := by
  unfold splitLastDot at h
  cases hb : breakAtFirst '.' w.reverse with
  | none => simp [hb] at h
  | some r =>
    simp [hb] at h
    obtain ⟨hp, ht⟩ := h
    obtain ⟨hw, hc⟩ := breakAtFirst_eq_some '.' w.reverse r.1 r.2 (by simpa using hb)
    subst hp; subst ht
    constructor
    · have := congrArg List.reverse hw
      simpa using this
    · simpa using hc

theorem verify_signCookie {Key : Type} (mac : Str → Key → Str) (v : Str) (k : Key)
    (hdot : '.' ∉ mac v k) (hne : mac v k ≠ []) :
    verifySignedCookie mac (signCookie mac v k) k = true := by
  simp [verifySignedCookie, signCookie, splitLastDot_encode v (mac v k) hdot,
    List.isEmpty_iff, hne]

theorem parse_signCookie {Key : Type} (mac : Str → Key → Str) (v : Str) (k : Key)
    (hdot : '.' ∉ mac v k) :
    parseSignedCookie (signCookie mac v k) = v := by
  simp [parseSignedCookie, signCookie, splitLastDot_encode v (mac v k) hdot]

theorem decode_signCookie {Key : Type} (mac : Str → Key → Str) (v : Str) (k : Key)
    (hdot : '.' ∉ mac v k) (hne : mac v k ≠ []) :
    decode mac (signCookie mac v k) k = some v := by
  simp [decode, verify_signCookie mac v k hdot hne,
    parse_signCookie mac v k hdot]

theorem verify_sound {Key : Type} (mac : Str → Key → Str) (w : Str) (k : Key)
    (h : verifySignedCookie mac w k = true) :
    w = signCookie mac (parseSignedCookie w) k := by
  unfold verifySignedCookie at h
  cases hs : splitLastDot w with
  | none => simp [hs] at h
  | some r =>
    simp [hs] at h
    obtain ⟨hw, _⟩ := splitLastDot_eq_some w r.1 r.2 (by simpa using hs)
    have hparse : parseSignedCookie w = r.1 := by
      simp [parseSignedCookie, hs]
    rw [hparse, signCookie, h.2]
    exact hw

theorem memKey_iff (m : CookieMap) (a : Str) : memKey m a = true ↔ a ∈ keysOf m := by
  simp [memKey, keysOf, List.any_eq_true, List.mem_map]

theorem insertKey_not_mem (m : CookieMap) (a b : Str) (h : memKey m a = false) :
    insertKey m a b = m ++ [(a, b)] := by
  simp [insertKey, h]

theorem memKey_insertKey_imp (m : CookieMap) (a b x : Str)
    (h : memKey (insertKey m a b) x = true) : x = a ∨ memKey m x = true := by
  unfold insertKey at h
  by_cases hm : memKey m a = true
  · rw [if_pos hm] at h
    rw [memKey, List.any_map, List.any_eq_true] at h
    obtain ⟨p, hp, he⟩ := h
    by_cases hpa : p.1 = a
    · left
      have ha : a = x := by simpa [Function.comp, hpa] using he
      exact ha.symm
    · right
      have hx : p.1 = x := by simpa [Function.comp, hpa] using he
      rw [memKey, List.any_eq_true]
      exact ⟨p, hp, by simp [hx]⟩
  · rw [if_neg hm] at h
    rw [memKey, List.any_append] at h
    rcases Bool.or_eq_true_iff.mp h with h1 | h2
    · right; exact h1
    · left
      have : a = x := by simpa using h2
      exact this.symm

theorem startsWithS_sDot (n : Str) : startsWithS (sDot ++ n) = true := by
  simp [startsWithS, sDot]

theorem startsWithS_eq (name : Str) (h : startsWithS name = true) :
    name = sDot ++ name.drop 2 := by
  cases name with
  | nil => simp [startsWithS] at h
  | cons c1 t1 =>
    cases t1 with
    | nil => simp [startsWithS] at h
    | cons c2 t2 =>
      simp [startsWithS] at h
      obtain ⟨h1, h2⟩ := h
      subst h1; subst h2
      rfl

theorem sDot_drop (n : Str) : (sDot ++ n).drop 2 = n := rfl

theorem partitionCookies_cons {Key : Type} (mac : Str → Key → Str) (k? : Option Key)
    (name value : Str) (rest : List (Str × Str)) (u s : CookieMap) :
    partitionCookies mac k? ((name, value) :: rest) u s =
      if startsWithS name then
        match k? with
        | none => partitionCookies mac k? rest u s
        | some k =>
          if verifySignedCookie mac value k then
            partitionCookies mac k? rest u
              (insertKey s (name.drop 2) (parseSignedCookie value))
          else
            partitionCookies mac k? rest u s
      else
        partitionCookies mac k? rest (insertKey u name value) s := rfl

theorem mem_insertKey_pair (m : CookieMap) (a b : Str) (q : Str × Str)
    (h : q ∈ insertKey m a b) : q ∈ m ∨ q = (a, b) := by
  unfold insertKey at h
  by_cases hm : memKey m a = true
  · rw [if_pos hm] at h
    rw [List.mem_map] at h
    obtain ⟨p, hp, he⟩ := h
    by_cases hpa : p.1 = a
    · right
      rw [← he]
      simp [hpa]
    · left
      rw [← he]
      simpa [hpa] using hp
  · rw [if_neg hm] at h
    rcases List.mem_append.mp h with h1 | h2
    · left; exact h1
    · right; simpa using h2

theorem keysOf_insertKey_mem (m : CookieMap) (a b : Str) (hm : memKey m a = true) :
    keysOf (insertKey m a b) = keysOf m := by
  unfold insertKey keysOf
  rw [if_pos hm, List.map_map]
  apply List.map_congr_left
  intro p _
  by_cases hpa : p.1 = a
  · simp [Function.comp, hpa]
  · simp [Function.comp, hpa]

theorem nodup_keysOf_insertKey (m : CookieMap) (a b : Str)
    (h : (keysOf m).Nodup) : (keysOf (insertKey m a b)).Nodup := by
  by_cases hm : memKey m a = true
  · rw [keysOf_insertKey_mem m a b hm]
    exact h
  · have hm' : memKey m a = false := by simpa using hm
    have ha : a ∉ keysOf m := fun hc => by
      have hc' := (memKey_iff m a).mpr hc
      rw [hm'] at hc'
      exact absurd hc' (by simp)
    rw [insertKey_not_mem m a b hm']
    unfold keysOf
    rw [List.map_append]
    simp only [List.nodup_append, List.map_cons, List.map_nil]
    refine ⟨h, by simp, ?_⟩
    intro x hx hy
    simp at hy
    subst hy
    exact ha hx

theorem partitionCookies_cons_unsigned {Key : Type} (mac : Str → Key → Str)
    (k? : Option Key) (name value : Str) (rest : List (Str × Str))
    (u s : CookieMap) (hn : startsWithS name = false) :
    partitionCookies mac k? ((name, value) :: rest) u s =
      partitionCookies mac k? rest (insertKey u name value) s := by
  simp [partitionCookies_cons, hn]

theorem partitionCookies_cons_nokey {Key : Type} (mac : Str → Key → Str)
    (name value : Str) (rest : List (Str × Str)) (u s : CookieMap)
    (hn : startsWithS name = true) :
    partitionCookies mac none ((name, value) :: rest) u s =
      partitionCookies mac none rest u s := by
  simp [partitionCookies_cons, hn]

theorem partitionCookies_cons_verified {Key : Type} (mac : Str → Key → Str)
    (k : Key) (name value : Str) (rest : List (Str × Str)) (u s : CookieMap)
    (hn : startsWithS name = true)
    (hv : verifySignedCookie mac value k = true) :
    partitionCookies mac (some k) ((name, value) :: rest) u s =
      partitionCookies mac (some k) rest u
        (insertKey s (name.drop 2) (parseSignedCookie value)) := by
  simp [partitionCookies_cons, hn, hv]

theorem partitionCookies_cons_failed {Key : Type} (mac : Str → Key → Str)
    (k : Key) (name value : Str) (rest : List (Str × Str)) (u s : CookieMap)
    (hn : startsWithS name = true)
    (hv : verifySignedCookie mac value k = false) :
    partitionCookies mac (some k) ((name, value) :: rest) u s =
      partitionCookies mac (some k) rest u s := by
  simp [partitionCookies_cons, hn, hv]

theorem partitionCookies_append {Key : Type} (mac : Str → Key → Str) (k? : Option Key)
    (xs ys : List (Str × Str)) (u s : CookieMap) :
    partitionCookies mac k? (xs ++ ys) u s =
      partitionCookies mac k? ys (partitionCookies mac k? xs u s).1
        (partitionCookies mac k? xs u s).2 := by
  induction xs generalizing u s with
  | nil => rfl
  | cons p rest ih =>
    obtain ⟨name, value⟩ := p
    rw [List.cons_append]
    cases hn : startsWithS name with
    | false =>
      rw [partitionCookies_cons_unsigned mac k? name value (rest ++ ys) u s hn,
        partitionCookies_cons_unsigned mac k? name value rest u s hn]
      exact ih _ _
    | true =>
      cases k? with
      | none =>
        rw [partitionCookies_cons_nokey mac name value (rest ++ ys) u s hn,
          partitionCookies_cons_nokey mac name value rest u s hn]
        exact ih _ _
      | some k =>
        cases hv : verifySignedCookie mac value k with
        | false =>
          rw [partitionCookies_cons_failed mac k name value (rest ++ ys) u s hn hv,
            partitionCookies_cons_failed mac k name value rest u s hn hv]
          exact ih _ _
        | true =>
          rw [partitionCookies_cons_verified mac k name value (rest ++ ys) u s hn hv,
            partitionCookies_cons_verified mac k name value rest u s hn hv]
          exact ih _ _

theorem partitionCookies_none_signed {Key : Type} (mac : Str → Key → Str)
    (pairs : List (Str × Str)) (u s : CookieMap) :
    (partitionCookies mac none pairs u s).2 = s := by
  induction pairs generalizing u s with
  | nil => rfl
  | cons p rest ih =>
    obtain ⟨name, value⟩ := p
    cases hn : startsWithS name with
    | false =>
      rw [partitionCookies_cons_unsigned mac none name value rest u s hn]
      exact ih _ _
    | true =>
      rw [partitionCookies_cons_nokey mac name value rest u s hn]
      exact ih _ _

theorem partitionCookies_skip {Key : Type} (mac : Str → Key → Str) (k? : Option Key)
    (l1 l2 : List (Str × Str)) (name value : Str) (u s : CookieMap)
    (hn : startsWithS name = true)
    (hskip : ∀ k, k? = some k → verifySignedCookie mac value k = false) :
    partitionCookies mac k? (l1 ++ (name, value) :: l2) u s =
      partitionCookies mac k? (l1 ++ l2) u s := by
  rw [partitionCookies_append, partitionCookies_append]
  cases k? with
  | none => rw [partitionCookies_cons_nokey mac name value l2 _ _ hn]
  | some k => rw [partitionCookies_cons_failed mac k name value l2 _ _ hn (hskip k rfl)]

theorem memKey_partition_signed {Key : Type} (mac : Str → Key → Str) (k : Key)
    (pairs : List (Str × Str)) (u s : CookieMap) (n : Str)
    (h : memKey (partitionCookies mac (some k) pairs u s).2 n = true) :
    memKey s n = true ∨
      ∃ v, (sDot ++ n, v) ∈ pairs ∧ verifySignedCookie mac v k = true := by
  induction pairs generalizing u s with
  | nil => left; exact h
  | cons p rest ih =>
    obtain ⟨name, value⟩ := p
    cases hn : startsWithS name with
    | false =>
      rw [partitionCookies_cons_unsigned mac (some k) name value rest u s hn] at h
      rcases ih _ _ h with h1 | ⟨v, hv1, hv2⟩
      · left; exact h1
      · right; exact ⟨v, List.mem_cons_of_mem _ hv1, hv2⟩
    | true =>
      cases hv : verifySignedCookie mac value k with
      | false =>
        rw [partitionCookies_cons_failed mac k name value rest u s hn hv] at h
        rcases ih _ _ h with h1 | ⟨v, hv1, hv2⟩
        · left; exact h1
        · right; exact ⟨v, List.mem_cons_of_mem _ hv1, hv2⟩
      | true =>
        rw [partitionCookies_cons_verified mac k name value rest u s hn hv] at h
        rcases ih _ _ h with h1 | ⟨v, hv1, hv2⟩
        · rcases memKey_insertKey_imp s (name.drop 2) (parseSignedCookie value) n h1
            with h2 | h3
          · right
            refine ⟨value, ?_, hv⟩
            have hname : name = sDot ++ n := by
              rw [startsWithS_eq name hn, h2]
            rw [← hname]
            exact List.mem_cons_self _ _
          · left; exact h3
        · right; exact ⟨v, List.mem_cons_of_mem _ hv1, hv2⟩

theorem partition_unsigned_not_s {Key : Type} (mac : Str → Key → Str) (k? : Option Key)
    (pairs : List (Str × Str)) (u s : CookieMap)
    (hu : ∀ q ∈ u, startsWithS q.1 = false) :
    ∀ q ∈ (partitionCookies mac k? pairs u s).1, startsWithS q.1 = false := by
  induction pairs generalizing u s with
  | nil => exact hu
  | cons p rest ih =>
    obtain ⟨name, value⟩ := p
    cases hn : startsWithS name with
    | true =>
      cases k? with
      | none =>
        rw [partitionCookies_cons_nokey mac name value rest u s hn]
        exact ih _ _ hu
      | some k =>
        cases hv : verifySignedCookie mac value k with
        | false =>
          rw [partitionCookies_cons_failed mac k name value rest u s hn hv]
          exact ih _ _ hu
        | true =>
          rw [partitionCookies_cons_verified mac k name value rest u s hn hv]
          exact ih _ _ hu
    | false =>
      rw [partitionCookies_cons_unsigned mac k? name value rest u s hn]
      apply ih
      intro q hq
      rcases mem_insertKey_pair u name value q hq with h1 | h2
      · exact hu q h1
      · rw [h2]; exact hn

theorem partition_nodup {Key : Type} (mac : Str → Key → Str) (k? : Option Key)
    (pairs : List (Str × Str)) (u s : CookieMap)
    (hu : (keysOf u).Nodup) (hs : (keysOf s).Nodup) :
    (keysOf (partitionCookies mac k? pairs u s).1).Nodup ∧
      (keysOf (partitionCookies mac k? pairs u s).2).Nodup := by
  induction pairs generalizing u s with
  | nil => exact ⟨hu, hs⟩
  | cons p rest ih =>
    obtain ⟨name, value⟩ := p
    cases hn : startsWithS name with
    | false =>
      rw [partitionCookies_cons_unsigned mac k? name value rest u s hn]
      exact ih _ _ (nodup_keysOf_insertKey u name value hu) hs
    | true =>
      cases k? with
      | none =>
        rw [partitionCookies_cons_nokey mac name value rest u s hn]
        exact ih _ _ hu hs
      | some k =>
        cases hv : verifySignedCookie mac value k with
        | false =>
          rw [partitionCookies_cons_failed mac k name value rest u s hn hv]
          exact ih _ _ hu hs
        | true =>
          rw [partitionCookies_cons_verified mac k name value rest u s hn hv]
          exact ih _ _ hu
            (nodup_keysOf_insertKey s (name.drop 2) (parseSignedCookie value) hs)

theorem foldl_insertKey_eq (m acc : CookieMap)
    (hnd : (keysOf m).Nodup)
    (hdisj : ∀ x ∈ keysOf m, memKey acc x = false) :
    m.foldl (fun mm p => insertKey mm p.1 p.2) acc = acc ++ m := by
  induction m generalizing acc with
  | nil => simp
  | cons p rest ih =>
    rw [List.foldl_cons]
    have hp : memKey acc p.1 = false := hdisj p.1 (by simp [keysOf])
    rw [insertKey_not_mem acc p.1 p.2 hp]
    have hnd' : (keysOf rest).Nodup := by
      unfold keysOf at hnd ⊢
      rw [List.map_cons] at hnd
      exact hnd.of_cons
    have hhead : p.1 ∉ keysOf rest := by
      unfold keysOf at hnd ⊢
      rw [List.map_cons] at hnd
      exact (List.nodup_cons.mp hnd).1
    rw [ih _ hnd' ?_]
    · simp
    · intro x hx
      have hxa : memKey acc x = false := by
        apply hdisj x
        unfold keysOf at hx ⊢
        rw [List.map_cons]
        exact List.mem_cons_of_mem _ hx
      have hxp : (p.1 == x) = false := by
        simp only [beq_eq_false_iff_ne, ne_eq]
        intro he
        exact hhead (he ▸ hx)
      show memKey (acc ++ [(p.1, p.2)]) x = false
      unfold memKey at hxa ⊢
      rw [List.any_append, hxa]
      simp [hxp]

theorem partition_all_unsigned {Key : Type} (mac : Str → Key → Str) (k? : Option Key)
    (xs : List (Str × Str)) (u s : CookieMap)
    (hx : ∀ q ∈ xs, startsWithS q.1 = false) :
    partitionCookies mac k? xs u s =
      (xs.foldl (fun m p => insertKey m p.1 p.2) u, s) := by
  induction xs generalizing u with
  | nil => rfl
  | cons p rest ih =>
    obtain ⟨name, value⟩ := p
    have hn : startsWithS name = false := hx (name, value) (List.mem_cons_self _ _)
    rw [partitionCookies_cons_unsigned mac k? name value rest u s hn, List.foldl_cons]
    exact ih _ (fun q hq => hx q (List.mem_cons_of_mem _ hq))

theorem partition_reserialized_signed {Key : Type} (mac : Str → Key → Str) (k : Key)
    (hmac : ∀ v : Str, '.' ∉ mac v k ∧ mac v k ≠ [])
    (s0 u s : CookieMap) :
    partitionCookies mac (some k)
        (s0.map (fun q => (sDot ++ q.1, signCookie mac q.2 k))) u s =
      (u, s0.foldl (fun m p => insertKey m p.1 p.2) s) := by
  induction s0 generalizing s with
  | nil => rfl
  | cons p rest ih =>
    obtain ⟨n, v⟩ := p
    rw [List.map_cons]
    have h1 : startsWithS (sDot ++ n) = true := startsWithS_sDot n
    have h2 : verifySignedCookie mac (signCookie mac v k) k = true :=
      verify_signCookie mac v k (hmac v).1 (hmac v).2
    rw [partitionCookies_cons_verified mac k (sDot ++ n) (signCookie mac v k) _ u s h1 h2]
    rw [sDot_drop n, parse_signCookie mac v k (hmac v).1, List.foldl_cons]
    exact ih _

theorem breakAtFirst_none (c : Char) (s : Str) (h : c ∉ s) :
    breakAtFirst c s = none := by
  induction s with
  | nil => rfl
  | cons x xs ih =>
    have hx : ¬(x = c) := fun hh => h (hh ▸ List.mem_cons_self x xs)
    rw [breakAtFirst, if_neg (by simpa using hx),
      ih (fun hm => h (List.mem_cons_of_mem _ hm))]
    rfl

theorem splitOnSemi_ne_nil (s : Str) : splitOnSemi s ≠ [] := by
  cases s with
  | nil => simp [splitOnSemi]
  | cons c rest =>
    rw [splitOnSemi]
    by_cases hc : (c == ';') = true
    · rw [if_pos hc]; simp
    · rw [if_neg hc]
      cases hr : splitOnSemi rest with
      | nil => simp
      | cons x xs => simp

theorem splitOnSemi_subset (h : Str) (seg : Str) (hs : seg ∈ splitOnSemi h) :
    ∀ x ∈ seg, x ∈ h := by
  induction h generalizing seg with
  | nil =>
    simp [splitOnSemi] at hs
    subst hs
    intro x hx
    cases hx
  | cons c rest ih =>
    rw [splitOnSemi] at hs
    by_cases hc : (c == ';') = true
    · rw [if_pos hc] at hs
      rcases List.mem_cons.mp hs with h1 | h2
      · subst h1; intro x hx; cases hx
      · intro x hx
        exact List.mem_cons_of_mem _ (ih seg h2 x hx)
    · rw [if_neg hc] at hs
      cases hr : splitOnSemi rest with
      | nil => exact absurd hr (splitOnSemi_ne_nil rest)
      | cons y ys =>
        rw [hr] at hs
        rcases List.mem_cons.mp hs with h1 | h2
        · subst h1
          intro x hx
          rcases List.mem_cons.mp hx with h3 | h4
          · exact h3 ▸ List.mem_cons_self _ _
          · exact List.mem_cons_of_mem _
              (ih y (hr ▸ List.mem_cons_self _ _) x h4)
        · intro x hx
          exact List.mem_cons_of_mem _
            (ih seg (hr ▸ List.mem_cons_of_mem _ h2) x hx)

theorem mem_dropSpaces (s : Str) (x : Char) (hx : x ∈ dropSpaces s) : x ∈ s := by
  unfold dropSpaces at hx
  exact (List.dropWhile_sublist _).subset hx

theorem parseSeg_no_eq (seg : Str) (h : '=' ∉ seg) : parseSeg seg = none := by
  unfold parseSeg
  rw [breakAtFirst_none '=' (dropSpaces seg)
    (fun hm => h (mem_dropSpaces seg '=' hm))]

/-- C1: the code evaluated at the failing input.  For a request carrying only
the valid signed cookie s.foo, the signed map holds the stripped key foo, yet
deleting foo emits zero expiry mutations: the source checks the prefixed name
s.foo for membership in the prefix-stripped signed map, so the signed-deletion
branch can never fire for a cookie the request actually carried, contradicting
the claim and the function's own documentation (exactly one expiry mutation
for s.foo was required). -/
theorem c1_delete_signed_zero_mutations :
    (cookiesMwImpl demoMac (some 0)
      [(sDot ++ ['f', 'o', 'o'], signCookie demoMac ['v'] 0)]).signedCookies =
      some [(['f', 'o', 'o'], ['v'])] ∧
    deleteCookie (cookiesMwImpl demoMac (some 0)
      [(sDot ++ ['f', 'o', 'o'], signCookie demoMac ['v'] 0)]) ['f', 'o', 'o'] =
      some [] := by
  decide

/-- C2: every key of the SignedCookieMap built by the partitioner comes from a
request cookie whose name carried the reserved prefix and whose tag verified
against the configured key; a successful decode only ever returns the
plaintext of a genuine encoding under that key; and a wire value produced
under a different key, whose tag over the plaintext differs from this key's
tag, never decodes — so no unverified plaintext is ever exposed in the signed
map. -/
theorem c2_signed_map_only_verified {Key : Type} (mac : Str → Key → Str) (k : Key)
    (pairs : List (Str × Str)) (n : Str) :
    (memKey (partitionCookies mac (some k) pairs [] []).2 n = true →
      ∃ v, (sDot ++ n, v) ∈ pairs ∧ verifySignedCookie mac v k = true) ∧
    (∀ w pl : Str, decode mac w k = some pl → w = signCookie mac pl k) ∧
    (∀ (v : Str) (k' : Key), '.' ∉ mac v k' → mac v k' ≠ mac v k →
      decode mac (signCookie mac v k') k = none) := by
  refine ⟨?_, ?_, ?_⟩
  · intro h
    rcases memKey_partition_signed mac k pairs [] [] n h with h1 | h2
    · exact absurd h1 (by simp [memKey])
    · exact h2
  · intro w pl hd
    unfold decode at hd
    cases hv : verifySignedCookie mac w k with
    | false => rw [hv] at hd; simp at hd
    | true =>
      rw [hv] at hd
      simp at hd
      rw [← hd]
      exact verify_sound mac w k hv
  · intro v k' hdot hneq
    have hsplit := splitLastDot_encode v (mac v k') hdot
    have hbeq : (mac v k == mac v k') = false := by
      simp only [beq_eq_false_iff_ne, ne_eq]
      exact fun he => hneq he.symm
    unfold decode verifySignedCookie signCookie
    rw [hsplit]
    simp [hbeq]

/-- Witness for C2 at a concrete request: the only signed-map key comes from
the prefixed, correctly tagged request cookie. -/
theorem c2_witness :
    ∃ v, (sDot ++ ['a'], v) ∈ [(sDot ++ ['a'], signCookie demoMac ['v'] 0)] ∧
      verifySignedCookie demoMac v 0 = true :=
  (c2_signed_map_only_verified demoMac 0
    [(sDot ++ ['a'], signCookie demoMac ['v'] 0)] ['a']).1 (by decide)

/-- C3: a request carrying a signed-prefixed cookie whose tag does not verify
produces exactly the same per-request state as the identical request with that
cookie entry removed, and hence the same downstream behavior for every
continuation; the partitioner itself never alters the response. -/
theorem c3_forged_cookie_ignored {Key R : Type} (mac : Str → Key → Str) (k : Key)
    (l1 l2 : List (Str × Str)) (n v : Str)
    (hv : verifySignedCookie mac v k = false) :
    cookiesMwImpl mac (some k) (l1 ++ (sDot ++ n, v) :: l2) =
      cookiesMwImpl mac (some k) (l1 ++ l2) ∧
    ∀ next : StateBag Key → R,
      runMw mac (some k) next (l1 ++ (sDot ++ n, v) :: l2) =
        runMw mac (some k) next (l1 ++ l2) := by
  have hp : partitionCookies mac (some k) (l1 ++ (sDot ++ n, v) :: l2) [] [] =
      partitionCookies mac (some k) (l1 ++ l2) [] [] :=
    partitionCookies_skip mac (some k) l1 l2 (sDot ++ n) v [] []
      (startsWithS_sDot n)
      (fun k' hk => by injection hk with h; exact h ▸ hv)
  constructor
  · unfold cookiesMwImpl
    rw [hp]
  · intro next
    unfold runMw cookiesMwImpl
    rw [hp]

/-- Witness for C3: a forged signed cookie with an unverifiable value is
observably identical to its absence. -/
theorem c3_witness :
    cookiesMwImpl demoMac (some 0)
        ([(['a'], ['b'])] ++ (sDot ++ ['f'], ['x']) :: []) =
      cookiesMwImpl demoMac (some 0) ([(['a'], ['b'])] ++ []) ∧
    runMw demoMac (some 0) (fun st => st.signedCookies)
        ([(['a'], ['b'])] ++ (sDot ++ ['f'], ['x']) :: []) =
      runMw demoMac (some 0) (fun st => st.signedCookies)
        ([(['a'], ['b'])] ++ []) := by
  have h := @c3_forged_cookie_ignored Nat (Option CookieMap) demoMac 0
    [(['a'], ['b'])] [] ['f'] ['x'] (by decide)
  exact ⟨h.1, h.2 _⟩

/-- C4: round-trip — decoding the codec's encoding of a value under the same
key succeeds and returns the original value, and a cookie written for a
non-reserved name and read back by the partitioner under the same key yields
the original value under the stripped name in the signed map.  The MAC is
assumed to produce tags in a dot-free alphabet that are never empty, exactly
the fixed-alphabet assumption the spec makes of the tag encoding. -/
theorem c4_roundtrip {Key : Type} (mac : Str → Key → Str) (k : Key) (v n : Str)
    (hdot : '.' ∉ mac v k) (hne : mac v k ≠ [])
    (_hn : startsWithS n = false) :
    decode mac (signCookie mac v k) k = some v ∧
    (partitionCookies mac (some k)
      [(sDot ++ n, signCookie mac v k)] [] []).2 = [(n, v)] := by
  constructor
  · exact decode_signCookie mac v k hdot hne
  · rw [partitionCookies_cons_verified mac k (sDot ++ n) (signCookie mac v k) [] [] []
      (startsWithS_sDot n) (verify_signCookie mac v k hdot hne)]
    rw [sDot_drop, parse_signCookie mac v k hdot]
    rfl

/-- Witness for C4 at a concrete value, name and key. -/
theorem c4_witness :
    decode demoMac (signCookie demoMac ['v'] 0) 0 = some ['v'] ∧
    (partitionCookies demoMac (some 0)
      [(sDot ++ ['a'], signCookie demoMac ['v'] 0)] [] []).2 = [(['a'], ['v'])] :=
  c4_roundtrip demoMac 0 ['v'] ['a'] (by decide) (by decide) (by decide)

/-- C5 counterexample: with request cookies foo=bar and s.foo carrying a
correctly tagged value, the string foo is simultaneously a key of the unsigned
map and of the (prefix-stripped) signed map, refuting the claimed key
disjointness of the two maps as stated. -/
theorem c5_counterexample :
    memKey (partitionCookies demoMac (some 0)
      [(['f'], ['b']), (sDot ++ ['f'], signCookie demoMac ['v'] 0)] [] []).1
      ['f'] = true ∧
    memKey (partitionCookies demoMac (some 0)
      [(['f'], ['b']), (sDot ++ ['f'], signCookie demoMac ['v'] 0)] [] []).2
      ['f'] = true := by
  decide

/-- C5 amended: the partition is disjoint at the level of the original request
names — no key of the unsigned map carries the reserved prefix, and for every
key n of the signed map the originating request name (the prefixed form of n)
is never a key of the unsigned map; the stripped signed keys themselves may
coincide textually with unsigned keys. -/
theorem c5_disjoint_by_construction {Key : Type} (mac : Str → Key → Str)
    (k? : Option Key) (pairs : List (Str × Str)) (n : Str) :
    (memKey (partitionCookies mac k? pairs [] []).1 n = true →
      startsWithS n = false) ∧
    (memKey (partitionCookies mac k? pairs [] []).2 n = true →
      memKey (partitionCookies mac k? pairs [] []).1 (sDot ++ n) = false) := by
  have hall : ∀ q ∈ (partitionCookies mac k? pairs [] []).1,
      startsWithS q.1 = false :=
    partition_unsigned_not_s mac k? pairs [] [] (fun q hq => absurd hq (by simp))
  have h1 : ∀ x : Str,
      memKey (partitionCookies mac k? pairs [] []).1 x = true →
      startsWithS x = false := by
    intro x hx
    rw [memKey_iff] at hx
    unfold keysOf at hx
    rw [List.mem_map] at hx
    obtain ⟨q, hq, he⟩ := hx
    exact he ▸ hall q hq
  refine ⟨h1 n, ?_⟩
  intro _
  cases hm : memKey (partitionCookies mac k? pairs [] []).1 (sDot ++ n) with
  | false => rfl
  | true =>
    have hf := h1 (sDot ++ n) hm
    rw [startsWithS_sDot] at hf
    exact absurd hf (by simp)

/-- Witness for the amended C5 at a concrete request. -/
theorem c5_witness :
    startsWithS ['f'] = false ∧
    memKey (partitionCookies demoMac (some 0)
      [(['f'], ['b']), (sDot ++ ['f'], signCookie demoMac ['v'] 0)] [] []).1
      (sDot ++ ['f']) = false := by
  have h := c5_disjoint_by_construction demoMac (some 0)
    [(['f'], ['b']), (sDot ++ ['f'], signCookie demoMac ['v'] 0)] ['f']
  exact ⟨h.1 (by decide), h.2 (by decide)⟩

/-- C6: both writers reject a name already carrying the reserved prefix with
ReservedNameError, and for every non-reserved name the unsigned writer appends
exactly one standard Set-Cookie entry with that name and value. -/
theorem c6_reserved_names {Key : Type} (mac : Str → Key → Str) (st : StateBag Key)
    (hs : List HeaderMutation) (c : Cookie) :
    (startsWithS c.name = true →
      setUnsignedCookie hs c = .error .ReservedNameError ∧
      setSignedCookie mac st hs c = .error .ReservedNameError) ∧
    (startsWithS c.name = false →
      setUnsignedCookie hs c =
        .ok (hs ++ [HeaderMutation.setCookie c.name c.value])) := by
  constructor
  · intro h
    constructor
    · simp [setUnsignedCookie, h]
    · simp [setSignedCookie, h]
  · intro h
    simp [setUnsignedCookie, h]

/-- Witness for C6 at the spec's own example name s.foo and at a plain name. -/
theorem c6_witness :
    (setUnsignedCookie [] ⟨sDot ++ ['f', 'o', 'o'], ['v']⟩ =
        .error .ReservedNameError ∧
      setSignedCookie demoMac ⟨some [], some [], some 0⟩ []
        ⟨sDot ++ ['f', 'o', 'o'], ['v']⟩ = .error .ReservedNameError) ∧
    setUnsignedCookie [] ⟨['f'], ['v']⟩ =
      .ok ([] ++ [HeaderMutation.setCookie ['f'] ['v']]) :=
  ⟨(c6_reserved_names demoMac ⟨some [], some [], some 0⟩ []
      ⟨sDot ++ ['f', 'o', 'o'], ['v']⟩).1 (by decide),
    (c6_reserved_names demoMac ⟨some [], some [], some 0⟩ []
      ⟨['f'], ['v']⟩).2 (by decide)⟩

/-- C7: for a non-reserved name, the signed writer fails with MissingKeyError
when the per-request state holds no key, and with a key it appends exactly one
Set-Cookie entry whose name is the reserved prefix added exactly once to the
plain name and whose value is the encoding of the value under that key. -/
theorem c7_signed_write {Key : Type} (mac : Str → Key → Str) (st : StateBag Key)
    (hs : List HeaderMutation) (c : Cookie)
    (hn : startsWithS c.name = false) :
    (st.cookieKey = none →
      setSignedCookie mac st hs c = .error .MissingKeyError) ∧
    (∀ k : Key, st.cookieKey = some k →
      setSignedCookie mac st hs c =
        .ok (hs ++ [HeaderMutation.setCookie (sDot ++ c.name)
          (signCookie mac c.value k)])) := by
  constructor
  · intro h
    simp [setSignedCookie, hn, h]
  · intro k h
    simp [setSignedCookie, hn, h]

/-- Witness for C7 with and without a configured key. -/
theorem c7_witness :
    setSignedCookie demoMac ⟨some [], some [], (none : Option Nat)⟩ []
        ⟨['f'], ['v']⟩ = .error .MissingKeyError ∧
    setSignedCookie demoMac ⟨some [], some [], some 0⟩ [] ⟨['f'], ['v']⟩ =
      .ok ([] ++ [HeaderMutation.setCookie (sDot ++ ['f'])
        (signCookie demoMac ['v'] 0)]) :=
  ⟨(c7_signed_write demoMac ⟨some [], some [], none⟩ [] ⟨['f'], ['v']⟩
      (by decide)).1 rfl,
    (c7_signed_write demoMac ⟨some [], some [], some 0⟩ [] ⟨['f'], ['v']⟩
      (by decide)).2 0 rfl⟩

/-- C8: partitioner edge cases.  A missing, empty, or equals-free (hence
syntactically invalid) cookie header yields two empty maps; a tokenized
segment with a name and nothing after the equals sign parses to the pair with
the empty-string value, which the partitioner inserts (not drops); a segment
with an empty name is discarded by the tokenizer; a signed-prefixed pair is
skipped entirely (appearing in neither map) when no key is configured; and
every pair with a non-reserved name is inserted verbatim into the unsigned
map.  The tokenizer itself is modelled from the spec, the partitioning loop
from the source. -/
theorem c8_edge_cases {Key : Type} (mac : Str → Key → Str) (k? : Option Key) :
    cookiesMwOnHeader mac k? none =
      ⟨some [], some [], k?⟩ ∧
    cookiesMwOnHeader mac k? (some []) = ⟨some [], some [], k?⟩ ∧
    (∀ h : Str, '=' ∉ h →
      cookiesMwOnHeader mac k? (some h) = ⟨some [], some [], k?⟩) ∧
    (∀ n : Str, n ≠ [] → ' ' ∉ n → '=' ∉ n →
      parseSeg (n ++ ['=']) = some (n, [])) ∧
    (∀ v : Str, parseSeg ('=' :: v) = none) ∧
    (∀ (l1 l2 : List (Str × Str)) (n v : Str), startsWithS n = true →
      cookiesMwImpl mac none (l1 ++ (n, v) :: l2) =
        cookiesMwImpl mac none (l1 ++ l2)) ∧
    (∀ n v : Str, startsWithS n = false →
      (cookiesMwImpl mac k? [(n, v)]).unsignedCookies = some [(n, v)]) := by
  refine ⟨rfl, rfl, ?_, ?_, ?_, ?_, ?_⟩
  · intro h hh
    have hseg : ∀ seg ∈ splitOnSemi h, parseSeg seg = none := by
      intro seg hs
      exact parseSeg_no_eq seg
        (fun hm => hh (splitOnSemi_subset h seg hs '=' hm))
    have hnil : (splitOnSemi h).filterMap parseSeg = [] := by
      rw [List.filterMap_eq_nil_iff]
      exact hseg
    have hget : getCookies (some h) =
        ((splitOnSemi h).filterMap parseSeg).foldl
          (fun m p => insertKey m p.1 p.2) [] := rfl
    unfold cookiesMwOnHeader cookiesMwImpl
    rw [hget, hnil]
    rfl
  · intro n hne hsp heq
    cases n with
    | nil => exact absurd rfl hne
    | cons c t =>
      have hc : (c == ' ') = false := by
        simp only [beq_eq_false_iff_ne, ne_eq]
        intro he
        exact hsp (he ▸ List.mem_cons_self _ _)
      have hdrop : dropSpaces ((c :: t) ++ ['=']) = (c :: t) ++ ['='] := by
        unfold dropSpaces
        rw [List.cons_append, List.dropWhile_cons, hc]
        simp
      unfold parseSeg
      rw [hdrop, breakAtFirst_append '=' (c :: t) [] heq]
      simp
  · intro v
    have h1 : dropSpaces ('=' :: v) = '=' :: v := by
      unfold dropSpaces
      rw [List.dropWhile_cons]
      simp
    unfold parseSeg
    rw [h1]
    rw [breakAtFirst, if_pos (by simp)]
    simp
  · intro l1 l2 n v hn
    unfold cookiesMwImpl
    rw [partitionCookies_skip mac none l1 l2 n v [] [] hn
      (fun k hk => by cases hk)]
  · intro n v hn
    unfold cookiesMwImpl
    rw [partitionCookies_cons_unsigned mac k? n v [] [] [] hn]
    rfl

/-- Witness for C8 at concrete headers and pairs. -/
theorem c8_witness :
    cookiesMwOnHeader demoMac (some 0) (some ['a', 'b']) =
      ⟨some [], some [], some 0⟩ ∧
    parseSeg (['n'] ++ ['=']) = some (['n'], []) ∧
    parseSeg ('=' :: ['x']) = none ∧
    cookiesMwImpl demoMac (none : Option Nat)
        ([] ++ (sDot ++ ['f'], ['x']) :: []) =
      cookiesMwImpl demoMac none ([] ++ []) ∧
    (cookiesMwImpl demoMac (some 0) [(['n'], ['v'])]).unsignedCookies =
      some [(['n'], ['v'])] := by
  have h := c8_edge_cases demoMac (some 0)
  have h' := c8_edge_cases demoMac (none : Option Nat)
  exact ⟨h.2.2.1 ['a', 'b'] (by decide),
    h.2.2.2.1 ['n'] (by decide) (by decide) (by decide),
    h.2.2.2.2.1 ['x'],
    h'.2.2.2.2.2.1 [] [] (sDot ++ ['f']) ['x'] (by decide),
    h.2.2.2.2.2.2 ['n'] ['v'] (by decide)⟩

/-- C9: idempotence of partitioning — re-serializing the union of the two
output maps (each signed entry re-serialized under the reserved prefix with
its value re-encoded under the same key) and partitioning again yields exactly
the same two maps.  The MAC is assumed to produce dot-free, non-empty tags. -/
theorem c9_idempotent {Key : Type} (mac : Str → Key → Str) (k : Key)
    (hmac : ∀ v : Str, '.' ∉ mac v k ∧ mac v k ≠ [])
    (pairs : List (Str × Str)) :
    partitionCookies mac (some k)
        ((partitionCookies mac (some k) pairs [] []).1 ++
          (partitionCookies mac (some k) pairs [] []).2.map
            (fun q => (sDot ++ q.1, signCookie mac q.2 k))) [] [] =
      partitionCookies mac (some k) pairs [] [] := by
  have hnd := partition_nodup mac (some k) pairs [] [] (by simp [keysOf])
    (by simp [keysOf])
  have hu : ∀ q ∈ (partitionCookies mac (some k) pairs [] []).1,
      startsWithS q.1 = false :=
    partition_unsigned_not_s mac (some k) pairs [] []
      (fun q hq => absurd hq (by simp))
  have h1 : partitionCookies mac (some k)
      (partitionCookies mac (some k) pairs [] []).1 [] [] =
      ((partitionCookies mac (some k) pairs [] []).1, []) := by
    rw [partition_all_unsigned mac (some k) _ [] [] hu,
      foldl_insertKey_eq _ [] hnd.1 (fun x _ => rfl)]
    rw [List.nil_append]
  rw [partitionCookies_append, h1]
  rw [partition_reserialized_signed mac k hmac
    (partitionCookies mac (some k) pairs [] []).2 _ _]
  show ((partitionCookies mac (some k) pairs [] []).1,
      (partitionCookies mac (some k) pairs [] []).2.foldl
        (fun m p => insertKey m p.1 p.2) []) =
    partitionCookies mac (some k) pairs [] []
  rw [foldl_insertKey_eq _ [] hnd.2 (fun x _ => rfl)]
  rw [List.nil_append]

/-- Witness for C9 at a request carrying one unsigned and one signed cookie. -/
theorem c9_witness :
    partitionCookies demoMac (some 0)
        ((partitionCookies demoMac (some 0)
            [(['a'], ['b']), (sDot ++ ['f'], signCookie demoMac ['v'] 0)]
            [] []).1 ++
          (partitionCookies demoMac (some 0)
            [(['a'], ['b']), (sDot ++ ['f'], signCookie demoMac ['v'] 0)]
            [] []).2.map
            (fun q => (sDot ++ q.1, signCookie demoMac q.2 0))) [] [] =
      partitionCookies demoMac (some 0)
        [(['a'], ['b']), (sDot ++ ['f'], signCookie demoMac ['v'] 0)] [] [] :=
  c9_idempotent demoMac 0
    (fun v => ⟨by simp [demoMac], by simp [demoMac]⟩)
    [(['a'], ['b']), (sDot ++ ['f'], signCookie demoMac ['v'] 0)]

/-- C10: the state bag produced by the middleware always contains both cookie
maps — the signed map is present, and empty whenever no key is configured —
and the Deleter's membership checks therefore never hit an absent entry: on
any middleware-produced state, deleteCookie always returns an actual mutation
list. -/
theorem c10_state_always_populated {Key : Type} (mac : Str → Key → Str)
    (k? : Option Key) (pairs : List (Str × Str)) (name : Str) :
    (cookiesMwImpl mac k? pairs).unsignedCookies.isSome = true ∧
    (cookiesMwImpl mac k? pairs).signedCookies.isSome = true ∧
    (k? = none → (cookiesMwImpl mac k? pairs).signedCookies = some []) ∧
    (deleteCookie (cookiesMwImpl mac k? pairs) name).isSome = true := by
  refine ⟨rfl, rfl, ?_, rfl⟩
  intro h
  subst h
  unfold cookiesMwImpl
  rw [partitionCookies_none_signed]

/-- Witness for C10 with no key configured. -/
theorem c10_witness :
    (cookiesMwImpl demoMac (none : Option Nat)
      [(['a'], ['b']), (sDot ++ ['f'], ['x'])]).signedCookies = some [] :=
  (c10_state_always_populated demoMac none
    [(['a'], ['b']), (sDot ++ ['f'], ['x'])] ['a']).2.2.1 rfl
